import Mathlib

set_option maxHeartbeats 1000000

namespace Findshlibs

/-! Shallow embedding of `src/macos/mod.rs` from the findshlibs crate.

Raw process memory is modelled by `MachMem`: a family of read functions
giving, for each byte address, the memory at that address reinterpreted as
each Mach-O structure the walkers read through.  A Rust reference such as
`&segment_command` becomes an address paired with the memory, and pointer
arithmetic (`offset(1)`, cursor advances by `cmdsize`) becomes address
arithmetic with the fixed structure sizes of the external binary contract.
A Rust `assert!` failure (panic) is modelled by the function returning
`none`.  Machine integers are `Nat`/`Int`; the `as usize` cast on 64-bit
fields is `usizeCast` (reduction mod `2 ^ 64`, the word size of the
targets this module compiles for).  Loops become recursion; the loops in
`SegmentIter::next` and `AllSectionsIter::next` advance at least one load
command per pass, so they are given the remaining-command counter as
structural fuel, which is exact (never exhausted early; proved in the
fuel-congruence lemmas below). -/

/-- Modelled from the spec: magic constant selecting the 32-bit header
interpretation (one of the "two magic constants selecting word width"
declared in the bindings module, which is outside src/). -/
def MH_MAGIC : Nat := 0xfeedface

/-- Modelled from the spec: magic constant selecting the 64-bit header
interpretation, declared in the bindings module. -/
def MH_MAGIC_64 : Nat := 0xfeedfacf

/-- Modelled from the spec: the load-command type tag identifying a 32-bit
segment command ("this is a segment"), declared in the bindings module. -/
def LC_SEGMENT : Nat := 0x1

/-- Modelled from the spec: the load-command type tag identifying a 64-bit
segment command, declared in the bindings module. -/
def LC_SEGMENT_64 : Nat := 0x19

/-- Largest value of the pointer-sized unsigned integer `usize` on the
64-bit targets this module is compiled for. -/
def USIZE_MAX : Nat := 2 ^ 64 - 1

/-- Semantics of the Rust `as usize` cast applied to a 64-bit value:
truncation to the machine word. -/
def usizeCast (n : Nat) : Nat := n % (USIZE_MAX + 1)

/-- Modelled from the spec: byte size of the 32-bit Mach-O header
(`mach_header`), part of the fixed binary layout contract. -/
def sizeof_mach_header : Nat := 28

/-- Modelled from the spec: byte size of the 64-bit Mach-O header. -/
def sizeof_mach_header_64 : Nat := 32

/-- Modelled from the spec: byte size of a 32-bit segment command record;
the section array starts at this offset past the record (`offset(1)`). -/
def sizeof_segment_command : Nat := 56

/-- Modelled from the spec: byte size of a 64-bit segment command record. -/
def sizeof_segment_command_64 : Nat := 72

/-- Modelled from the spec: byte size of a 32-bit section record; the
section cursor advances by one record width per step. -/
def sizeof_section : Nat := 68

/-- Modelled from the spec: byte size of a 64-bit section record. -/
def sizeof_section_64 : Nat := 80

/-- Modelled from the spec: the load-command header layout (type tag and
declared byte size), from the bindings module.  Fields the walkers never
read are omitted. -/
structure load_command where
  cmd : Nat
  cmdsize : Nat

/-- Modelled from the spec: the 32-bit Mach-O header layout (magic and
command count); unread fields omitted. -/
structure mach_header where
  magic : Nat
  ncmds : Nat

/-- Modelled from the spec: the 64-bit Mach-O header layout; unread
fields omitted. -/
structure mach_header_64 where
  magic : Nat
  ncmds : Nat

/-- Modelled from the spec: the 32-bit section record layout (name bytes,
stated address, byte length); unread fields omitted. -/
structure «section» where
  sectname : List Nat
  addr : Nat
  size : Nat

/-- Modelled from the spec: the 64-bit section record layout; unread
fields omitted. -/
structure section_64 where
  sectname : List Nat
  addr : Nat
  size : Nat

/-- Modelled from the spec: the 32-bit segment command record layout
(name bytes, stated address, byte length, section count); unread fields
omitted. -/
structure segment_command where
  segname : List Nat
  vmaddr : Nat
  vmsize : Nat
  nsects : Nat

/-- Modelled from the spec: the 64-bit segment command record layout;
unread fields omitted. -/
structure segment_command_64 where
  segname : List Nat
  vmaddr : Nat
  vmsize : Nat
  nsects : Nat

/-- Raw process memory, as the collection of typed reads the walkers
perform: for each byte address, the memory there reinterpreted as each
Mach-O structure.  This models the unchecked pointer casts of the source:
a read always yields a value (live memory), with no validation. -/
structure MachMem where
  headerAt : Nat → mach_header
  header64At : Nat → mach_header_64
  cmdAt : Nat → load_command
  seg32At : Nat → segment_command
  seg64At : Nat → segment_command_64
  sec32At : Nat → «section»
  sec64At : Nat → section_64

/-- Reading a fixed NUL-terminated byte array as a C string and taking its
bytes (`CStr::from_ptr(..).to_bytes()`): the bytes before the first NUL. -/
def cstrBytes (bytes : List Nat) : List Nat :=
  bytes.takeWhile (fun b => b != 0)

/-- Modelled from the spec: a stated virtual memory address, "as linked"
(the `Svma` newtype of the trait crate, which is outside src/). -/
structure Svma where
  addr : Nat

/-- Modelled from the spec: the load bias (slide), a signed offset between
linked and runtime addresses (the `Bias` newtype of the trait crate). -/
structure Bias where
  bias : Int

/-- Modelled from the spec: the continue/break signal a callback returns
(the `IterationControl` type of the trait crate). -/
inductive IterationControl where
  | Continue
  | Break

/-- A Mach-O section view: a reference to a 32-bit or 64-bit section
record (`Section` in the source). -/
inductive Section where
  | section32 (s : «section»)
  | section64 (s : section_64)

/-- Translation of `Section`'s `name`: the section name bytes read as a
C string. -/
def Section.name : Section → List Nat
  | Section.section32 s => cstrBytes s.sectname
  | Section.section64 s => cstrBytes s.sectname

/-- Translation of `Section`'s `stated_virtual_memory_address`: the raw
`addr` field; the 64-bit variant asserts `addr < usize::MAX` before the
cast (panic modelled as `none`). -/
def Section.stated_virtual_memory_address : Section → Option Svma
  | Section.section32 s => some ⟨s.addr⟩
  | Section.section64 s =>
      if s.addr < USIZE_MAX then some ⟨usizeCast s.addr⟩ else none

/-- Translation of `Section`'s `len`: the raw `size` field; the 64-bit
variant performs the unchecked `as usize` cast with no assertion. -/
def Section.len : Section → Nat
  | Section.section32 s => s.size
  | Section.section64 s => usizeCast s.size

/-- The section walker (`SectionIter` in the source): a cursor into the
contiguous section array and a remaining-section counter. -/
inductive SectionIter where
  | sectionIter32 (mem : MachMem) (sections : Nat) (num_sections : Nat)
  | sectionIter64 (mem : MachMem) (sections : Nat) (num_sections : Nat)

/-- Translation of `SectionIter::next`: if the counter is zero yield
nothing, otherwise decrement it, read the record at the cursor, advance
the cursor by one record width, and yield the section view. -/
def SectionIter.next : SectionIter → Option (Section × SectionIter)
  | SectionIter.sectionIter32 _ _ 0 => none
  | SectionIter.sectionIter32 mem p (n + 1) =>
      some (Section.section32 (mem.sec32At p),
        SectionIter.sectionIter32 mem (p + sizeof_section) n)
  | SectionIter.sectionIter64 _ _ 0 => none
  | SectionIter.sectionIter64 mem p (n + 1) =>
      some (Section.section64 (mem.sec64At p),
        SectionIter.sectionIter64 mem (p + sizeof_section_64) n)

/-- The remaining-section counter of a section walker. -/
def SectionIter.count : SectionIter → Nat
  | SectionIter.sectionIter32 _ _ n => n
  | SectionIter.sectionIter64 _ _ n => n

/-- Running a section walker to exhaustion, with fuel (the counter is an
exact bound on the number of steps). -/
def SectionIter.toListGo : Nat → SectionIter → List Section
  | 0, _ => []
  | fuel + 1, it =>
      match it.next with
      | none => []
      | some (s, it') => s :: SectionIter.toListGo fuel it'

/-- The full sequence of sections a section walker yields. -/
def SectionIter.toList (it : SectionIter) : List Section :=
  SectionIter.toListGo it.count it

/-- A Mach-O segment view (`Segment` in the source): a reference to a
32-bit or 64-bit segment command record, as memory plus address. -/
inductive Segment where
  | segment32 (mem : MachMem) (addr : Nat)
  | segment64 (mem : MachMem) (addr : Nat)

/-- Translation of `Segment`'s `name`: the segment name bytes read as a
C string. -/
def Segment.name : Segment → List Nat
  | Segment.segment32 mem a => cstrBytes (mem.seg32At a).segname
  | Segment.segment64 mem a => cstrBytes (mem.seg64At a).segname

/-- Translation of `Segment`'s `stated_virtual_memory_address`: the raw
`vmaddr` field; the 64-bit variant asserts `vmaddr <= usize::MAX`. -/
def Segment.stated_virtual_memory_address : Segment → Option Svma
  | Segment.segment32 mem a => some ⟨(mem.seg32At a).vmaddr⟩
  | Segment.segment64 mem a =>
      if (mem.seg64At a).vmaddr ≤ USIZE_MAX then
        some ⟨usizeCast (mem.seg64At a).vmaddr⟩
      else none

/-- Translation of `Segment`'s `len`: the raw `vmsize` field; the 64-bit
variant asserts `vmsize <= usize::MAX`. -/
def Segment.len : Segment → Option Nat
  | Segment.segment32 mem a => some (mem.seg32At a).vmsize
  | Segment.segment64 mem a =>
      if (mem.seg64At a).vmsize ≤ USIZE_MAX then
        some (usizeCast (mem.seg64At a).vmsize)
      else none

/-- The declared section count (`nsects` field) of a segment's record. -/
def Segment.nsects : Segment → Nat
  | Segment.segment32 mem a => (mem.seg32At a).nsects
  | Segment.segment64 mem a => (mem.seg64At a).nsects

/-- Translation of `Segment::sections`: a section walker over the array
that starts one record width past the segment command (`offset(1)`), with
the segment's own `nsects` as counter. -/
def Segment.sections : Segment → SectionIter
  | Segment.segment32 mem a =>
      SectionIter.sectionIter32 mem (a + sizeof_segment_command)
        (mem.seg32At a).nsects
  | Segment.segment64 mem a =>
      SectionIter.sectionIter64 mem (a + sizeof_segment_command_64)
        (mem.seg64At a).nsects

/-- The segment walker (`SegmentIter` in the source): a byte cursor into
the load-command region and a remaining-command counter. -/
structure SegmentIter where
  mem : MachMem
  commands : Nat
  num_commands : Nat

/-- The loop body of `SegmentIter::next`, recursing on the counter: read
the load command at the cursor; on a segment tag yield the typed view at
the cursor and advance the cursor by the command's declared `cmdsize`; on
any other tag advance by the same declared size and continue; stop when
the counter reaches zero. -/
def SegmentIter.nextGo (mem : MachMem) : Nat → Nat → Option (Segment × SegmentIter)
  | _, 0 => none
  | commands, n + 1 =>
      let this_command := mem.cmdAt commands
      let command_size := this_command.cmdsize
      if this_command.cmd = LC_SEGMENT then
        some (Segment.segment32 mem commands, ⟨mem, commands + command_size, n⟩)
      else if this_command.cmd = LC_SEGMENT_64 then
        some (Segment.segment64 mem commands, ⟨mem, commands + command_size, n⟩)
      else
        SegmentIter.nextGo mem (commands + command_size) n

/-- Translation of `SegmentIter::next`. -/
def SegmentIter.next (it : SegmentIter) : Option (Segment × SegmentIter) :=
  SegmentIter.nextGo it.mem it.commands it.num_commands

/-- Running a segment walker to exhaustion, with fuel (each yielded
segment consumes at least one command, so the counter is enough fuel). -/
def SegmentIter.toListGo : Nat → SegmentIter → List Segment
  | 0, _ => []
  | fuel + 1, it =>
      match it.next with
      | none => []
      | some (seg, it') => seg :: SegmentIter.toListGo fuel it'

/-- The full sequence of segments a segment walker yields. -/
def SegmentIter.toList (it : SegmentIter) : List Segment :=
  SegmentIter.toListGo it.num_commands it

/-- Header classification result (`MachType` in the source). -/
inductive MachType where
  | Mach32
  | Mach64

/-- Translation of `MachType::from_header_ptr`: a null pointer gives
nothing; otherwise classify by comparing the magic field against the two
known constants, unrecognized magic giving nothing. -/
def MachType.from_header_ptr (mem : MachMem) (header : Option Nat) : Option MachType :=
  header.bind (fun a =>
    if (mem.headerAt a).magic = MH_MAGIC then some MachType.Mach32
    else if (mem.headerAt a).magic = MH_MAGIC_64 then some MachType.Mach64
    else none)

/-- A classified header reference (`MachHeader` in the source). -/
inductive MachHeader where
  | Header32 (mem : MachMem) (addr : Nat)
  | Header64 (mem : MachMem) (addr : Nat)

/-- Translation of `MachHeader::from_header_ptr`: classify, then
reinterpret the same pointer at the selected width. -/
def MachHeader.from_header_ptr (mem : MachMem) (header : Option Nat) : Option MachHeader :=
  (MachType.from_header_ptr mem header).bind (fun ty =>
    match ty with
    | MachType.Mach32 => header.map (fun a => MachHeader.Header32 mem a)
    | MachType.Mach64 => header.map (fun a => MachHeader.Header64 mem a))

/-- A loaded shared library observed during one enumeration pass
(`SharedLibrary` in the source): classified header, load bias (slide),
and path name bytes. -/
structure SharedLibrary where
  header : MachHeader
  slide : Int
  name : List Nat

/-- Translation of `SharedLibrary::new`. -/
def SharedLibrary.new (header : MachHeader) (slide : Int) (name : List Nat) : SharedLibrary :=
  ⟨header, slide, name⟩

/-- Translation of `SharedLibrary::segments`: a segment walker whose
cursor starts one header width past the header and whose counter is the
header's `ncmds` field. -/
def SharedLibrary.segments : SharedLibrary → SegmentIter
  | ⟨MachHeader.Header32 mem a, _, _⟩ =>
      ⟨mem, a + sizeof_mach_header, (mem.headerAt a).ncmds⟩
  | ⟨MachHeader.Header64 mem a, _, _⟩ =>
      ⟨mem, a + sizeof_mach_header_64, (mem.header64At a).ncmds⟩

/-- Translation of `SharedLibrary::virtual_memory_bias`: the slide
recorded at construction, wrapped in `Bias`. -/
def SharedLibrary.virtual_memory_bias (sh : SharedLibrary) : Bias :=
  ⟨sh.slide⟩

/-- The flat all-sections iterator (`AllSectionsIter` in the source): an
outer segment walker and at most one active inner section walker. -/
structure AllSectionsIter where
  segments : SegmentIter
  sections : Option SectionIter

/-- The loop body of `AllSectionsIter::next`: if the current inner walker
yields a section, return it; otherwise advance the outer walker, start a
fresh inner walker over the next segment and loop, or stop when the outer
walker is exhausted.  Each pass through the loop consumes at least one
load command, so the outer remaining-command counter serves as fuel. -/
def AllSectionsIter.nextGo : Nat → AllSectionsIter → Option (Section × AllSectionsIter)
  | fuel, it =>
      match it.sections.bind SectionIter.next with
      | some (s, si') => some (s, ⟨it.segments, some si'⟩)
      | none =>
          match it.segments.next with
          | none => none
          | some (seg, segIt') =>
              match fuel with
              | 0 => none
              | fuel' + 1 =>
                  AllSectionsIter.nextGo fuel' ⟨segIt', some seg.sections⟩

/-- Translation of `AllSectionsIter::next`. -/
def AllSectionsIter.next (it : AllSectionsIter) : Option (Section × AllSectionsIter) :=
  AllSectionsIter.nextGo it.segments.num_commands it

/-- The remaining-section counter of the optional inner walker. -/
def AllSectionsIter.innerCount : Option SectionIter → Nat
  | none => 0
  | some si => si.count

/-- A bound on the number of sections the iterator can still yield: the
inner walker's counter plus the section counts of the segments the outer
walker has yet to yield.  Strictly decreases at every successful step. -/
def AllSectionsIter.bound (it : AllSectionsIter) : Nat :=
  AllSectionsIter.innerCount it.sections +
    ((it.segments.toList.map Segment.nsects).sum)

/-- Running the all-sections iterator to exhaustion, with fuel. -/
def AllSectionsIter.toListGo : Nat → AllSectionsIter → List Section
  | 0, _ => []
  | fuel + 1, it =>
      match it.next with
      | none => []
      | some (s, it') => s :: AllSectionsIter.toListGo fuel it'

/-- The full sequence of sections the all-sections iterator yields. -/
def AllSectionsIter.toList (it : AllSectionsIter) : List Section :=
  AllSectionsIter.toListGo it.bound it

/-- Translation of `SharedLibrary::sections`: a fresh all-sections
iterator over this library's segments, with no inner walker yet. -/
def SharedLibrary.sections (sh : SharedLibrary) : AllSectionsIter :=
  ⟨sh.segments, none⟩

/-- The byte literal `b"__eh_frame_hdr"` from the source. -/
def EH_FRAME_HDR_NAME : List Nat :=
  [95, 95, 101, 104, 95, 102, 114, 97, 109, 101, 95, 104, 100, 114]

/-- The byte literal `b"__eh_frame"` from the source. -/
def EH_FRAME_NAME : List Nat :=
  [95, 95, 101, 104, 95, 102, 114, 97, 109, 101]

/-- The unwind-header section view (`EhFrameHdr` in the source), a
newtype over `Section`. -/
structure EhFrameHdr where
  sec : Section

/-- The unwind-table section view (`EhFrame` in the source), a newtype
over `Section`. -/
structure EhFrame where
  sec : Section

/-- Translation of `SharedLibrary::eh_frame_hdr`: the standard iterator
`find` over the all-sections sequence (the first yielded section whose
name bytes equal the fixed literal), wrapped in `EhFrameHdr`. -/
def SharedLibrary.eh_frame_hdr (sh : SharedLibrary) : Option EhFrameHdr :=
  (sh.sections.toList.find? (fun s => s.name == EH_FRAME_HDR_NAME)).map EhFrameHdr.mk

/-- Translation of `SharedLibrary::eh_frame`: the first yielded section
whose name bytes equal `b"__eh_frame"`, wrapped in `EhFrame`. -/
def SharedLibrary.eh_frame (sh : SharedLibrary) : Option EhFrame :=
  (sh.sections.toList.find? (fun s => s.name == EH_FRAME_NAME)).map EhFrame.mk

/-- Modelled from the spec: one slot of the loaded-image table accessor
(per-index header pointer, load bias, path name); the dyld system calls
are declared in the bindings module, outside src/.  A `none` pointer is a
null pointer; name bytes are the C string at the name pointer. -/
structure DyldSlot where
  headerAddr : Option Nat
  slide : Int
  nameAddr : Option (List Nat)

/-- Modelled from the spec: the loader's image table as observed under
the lock: the process memory and the slots for indices `0..count` in
ascending index order. -/
structure DyldState where
  mem : MachMem
  images : List DyldSlot

/-- The loop body of `SharedLibrary::each` over the remaining table
slots, with the caller's stateful callback (`FnMut` state made explicit).
Returns the images the callback was invoked on, in order, paired with the
final callback state; `none` models an assertion failure (abort).  A slot
whose header fails classification is skipped silently; a recognized slot
asserts `slide != 0` and then `name != null`, builds the image view, and
invokes the callback, stopping on `Break`. -/
def eachFrom {σ : Type} (mem : MachMem)
    (f : σ → SharedLibrary → σ × IterationControl) :
    σ → List DyldSlot → Option (List SharedLibrary × σ)
  | s, [] => some ([], s)
  | s, slot :: rest =>
      match MachHeader.from_header_ptr mem slot.headerAddr with
      | none => eachFrom mem f s rest
      | some header =>
          if slot.slide = 0 then none
          else
            match slot.nameAddr with
            | none => none
            | some name =>
                let shlib := SharedLibrary.new header slot.slide name
                let fr := f s shlib
                match fr.2 with
                | IterationControl.Break => some ([shlib], fr.1)
                | IterationControl.Continue =>
                    (eachFrom mem f fr.1 rest).map (fun r => (shlib :: r.1, r.2))

/-- Translation of `SharedLibrary::each`: iterate the loader table's
indices in ascending order from the start. -/
def eachRun {σ : Type} (f : σ → SharedLibrary → σ × IterationControl)
    (s : σ) (st : DyldState) : Option (List SharedLibrary × σ) :=
  eachFrom st.mem f s st.images

/-- A slot satisfies the loader's contract: if its header classifies,
its slide is nonzero and its name pointer is non-null (the two
assertions in `each`). -/
def slotOkB (mem : MachMem) (slot : DyldSlot) : Bool :=
  match MachHeader.from_header_ptr mem slot.headerAddr with
  | some _ => (slot.slide != 0) && slot.nameAddr.isSome
  | none => true

/-- Every slot of the table satisfies the loader's contract. -/
def wellFormedB (st : DyldState) : Bool :=
  st.images.all (slotOkB st.mem)

/-- The image views `each` would construct, one per slot whose header
classifies (with its name present), in ascending index order. -/
def recognizedImages (mem : MachMem) : List DyldSlot → List SharedLibrary
  | [] => []
  | slot :: rest =>
      match MachHeader.from_header_ptr mem slot.headerAddr, slot.nameAddr with
      | some header, some name =>
          SharedLibrary.new header slot.slide name :: recognizedImages mem rest
      | _, _ => recognizedImages mem rest

/-- Feeding a list of images to a stateful callback in order, stopping
with (and including) the first image on which it returns `Break`. -/
def stTakeUntilBreak {σ : Type} (f : σ → SharedLibrary → σ × IterationControl) :
    σ → List SharedLibrary → List SharedLibrary × σ
  | s, [] => ([], s)
  | s, x :: xs =>
      let fr := f s x
      match fr.2 with
      | IterationControl.Break => ([x], fr.1)
      | IterationControl.Continue =>
          let r := stTakeUntilBreak f fr.1 xs
          (x :: r.1, r.2)

/-- A counting callback that always continues. -/
def countContinue : Nat → SharedLibrary → Nat × IterationControl :=
  fun c _ => (c + 1, IterationControl.Continue)

/-- A counting callback that breaks exactly on its k-th invocation. -/
def countBreakAt (k : Nat) : Nat → SharedLibrary → Nat × IterationControl :=
  fun c _ => (c + 1, if c + 1 = k then IterationControl.Break else IterationControl.Continue)

/-- A concrete memory whose every load command is a 32-bit segment tag
with one section named `__eh_frame_hdr`; used to instantiate theorems
with hypotheses at explicit inputs. -/
def memW : MachMem where
  headerAt := fun _ => ⟨MH_MAGIC, 1⟩
  header64At := fun _ => ⟨MH_MAGIC_64, 0⟩
  cmdAt := fun _ => ⟨LC_SEGMENT, 56⟩
  seg32At := fun _ => ⟨[95, 95, 84, 69, 88, 84, 0, 0], 4096, 8192, 1⟩
  seg64At := fun _ => ⟨[95, 95, 84, 69, 88, 84, 0, 0], 4096, 8192, 0⟩
  sec32At := fun _ => ⟨EH_FRAME_HDR_NAME ++ [0, 0], 4096, 64⟩
  sec64At := fun _ => ⟨EH_FRAME_HDR_NAME ++ [0, 0], 4096, 64⟩

/-- A concrete memory whose load commands carry an unrecognized tag and
whose headers carry an unrecognized magic. -/
def memU : MachMem where
  headerAt := fun _ => ⟨0, 0⟩
  header64At := fun _ => ⟨0, 0⟩
  cmdAt := fun _ => ⟨0x2, 24⟩
  seg32At := fun _ => ⟨[], 0, 0, 0⟩
  seg64At := fun _ => ⟨[], 0, 0, 0⟩
  sec32At := fun _ => ⟨[], 0, 0⟩
  sec64At := fun _ => ⟨[], 0, 0⟩

/-- A concrete shared library over `memW` (32-bit header at address 0,
slide 1, name `/a`). -/
def shW : SharedLibrary :=
  ⟨MachHeader.Header32 memW 0, 1, [47, 97]⟩

/-- A concrete loader table with two recognized images over `memW`. -/
def stW : DyldState :=
  ⟨memW, [⟨some 0, 1, some [47, 97]⟩, ⟨some 0, 1, some [47, 98]⟩]⟩

/-- The second image of `stW` (name `/b`). -/
def shWb : SharedLibrary :=
  ⟨MachHeader.Header32 memW 0, 1, [47, 98]⟩

/-- A concrete loader table whose single recognized image has an empty
name string (non-null name pointer to a lone NUL byte). -/
def stEmptyName : DyldState :=
  ⟨memW, [⟨some 0, 1, some []⟩]⟩

/-- The image `each` constructs for the single slot of `stEmptyName`. -/
def shEmptyName : SharedLibrary :=
  ⟨MachHeader.Header32 memW 0, 1, []⟩

/-! Helper lemmas about the walkers. -/

theorem SectionIter.next_none_iff (it : SectionIter) : it.next = none ↔ it.count = 0 := by
  cases it with
  | sectionIter32 mem p n => cases n <;> simp [SectionIter.next, SectionIter.count]
  | sectionIter64 mem p n => cases n <;> simp [SectionIter.next, SectionIter.count]

theorem SectionIter.next_count {it it' : SectionIter} {s : Section}
    (h : it.next = some (s, it')) : it.count = it'.count + 1 := by
  cases it with
  | sectionIter32 mem p n =>
      cases n with
      | zero => simp [SectionIter.next] at h
      | succ n =>
          simp [SectionIter.next] at h
          simp [SectionIter.count, h.2.symm]
  | sectionIter64 mem p n =>
      cases n with
      | zero => simp [SectionIter.next] at h
      | succ n =>
          simp [SectionIter.next] at h
          simp [SectionIter.count, h.2.symm]

theorem SectionIter.secToList_unfold (it : SectionIter) :
    it.toList = match it.next with
      | none => []
      | some (s, it') => s :: it'.toList := by
  cases it with
  | sectionIter32 mem p n => cases n <;> rfl
  | sectionIter64 mem p n => cases n <;> rfl

theorem SectionIter.toList_length (it : SectionIter) : it.toList.length = it.count := by
  cases it with
  | sectionIter32 mem p n =>
      induction n generalizing p with
      | zero => rfl
      | succ n ih =>
          rw [SectionIter.secToList_unfold]
          simp only [SectionIter.next]
          simpa [SectionIter.count] using ih (p + sizeof_section)
  | sectionIter64 mem p n =>
      induction n generalizing p with
      | zero => rfl
      | succ n ih =>
          rw [SectionIter.secToList_unfold]
          simp only [SectionIter.next]
          simpa [SectionIter.count] using ih (p + sizeof_section_64)

theorem SegmentIter.nextGo_some :
    ∀ (n : Nat) (mem : MachMem) (p : Nat) {seg : Segment} {it' : SegmentIter},
      SegmentIter.nextGo mem p n = some (seg, it') →
      it'.num_commands < n ∧ it'.mem = mem := by
  intro n
  induction n with
  | zero => intro mem p seg it' h; simp [SegmentIter.nextGo] at h
  | succ n ih =>
      intro mem p seg it' h
      rw [SegmentIter.nextGo] at h
      split_ifs at h with h1 h2
      · simp only [Option.some.injEq, Prod.mk.injEq] at h
        rw [← h.2]
        exact ⟨Nat.lt_succ_self n, rfl⟩
      · simp only [Option.some.injEq, Prod.mk.injEq] at h
        rw [← h.2]
        exact ⟨Nat.lt_succ_self n, rfl⟩
      · have := ih mem (p + (mem.cmdAt p).cmdsize) h
        exact ⟨Nat.lt_succ_of_lt this.1, this.2⟩

theorem SegmentIter.next_some {it : SegmentIter} {seg : Segment} {it' : SegmentIter}
    (h : it.next = some (seg, it')) :
    it'.num_commands < it.num_commands ∧ it'.mem = it.mem :=
  SegmentIter.nextGo_some it.num_commands it.mem it.commands h

theorem SegmentIter.next_none_zero (it : SegmentIter) (h : it.num_commands = 0) :
    it.next = none := by
  cases it with
  | mk mem p n => simp only at h; subst h; rfl

theorem SegmentIter.segToListGo_succ_none {it : SegmentIter} (fuel : Nat)
    (h : it.next = none) : SegmentIter.toListGo (fuel + 1) it = [] := by
  simp only [SegmentIter.toListGo]
  rw [h]

theorem SegmentIter.segToListGo_succ_some {it : SegmentIter} {seg : Segment}
    {it' : SegmentIter} (fuel : Nat) (h : it.next = some (seg, it')) :
    SegmentIter.toListGo (fuel + 1) it = seg :: SegmentIter.toListGo fuel it' := by
  simp only [SegmentIter.toListGo]
  rw [h]

theorem SegmentIter.segToListGo_eq :
    ∀ (n : Nat) (it : SegmentIter), it.num_commands ≤ n →
      SegmentIter.toListGo n it = it.toList := by
  intro n
  induction n using Nat.strongRecOn with
  | _ n ih =>
    intro it hle
    match n with
    | 0 =>
        have h0 : it.num_commands = 0 := Nat.le_zero.mp hle
        rw [SegmentIter.toList, h0]
    | n + 1 =>
        cases hn : it.next with
        | none =>
            rw [SegmentIter.segToListGo_succ_none n hn]
            simp only [SegmentIter.toList]
            cases hm : it.num_commands with
            | zero => rfl
            | succ m => rw [SegmentIter.segToListGo_succ_none m hn]
        | some r =>
            obtain ⟨seg, it'⟩ := r
            have hlt := (SegmentIter.next_some hn).1
            rw [SegmentIter.segToListGo_succ_some n hn]
            simp only [SegmentIter.toList]
            cases hm : it.num_commands with
            | zero =>
                rw [SegmentIter.next_none_zero it hm] at hn
                exact absurd hn (by simp)
            | succ m =>
                rw [SegmentIter.segToListGo_succ_some m hn]
                rw [hm] at hlt
                rw [ih n (Nat.lt_succ_self n) it' (by omega)]
                rw [ih m (by omega) it' (by omega)]

theorem SegmentIter.segToList_unfold (it : SegmentIter) :
    it.toList = match it.next with
      | none => []
      | some (seg, it') => seg :: it'.toList := by
  cases hn : it.next with
  | none =>
      simp only [SegmentIter.toList]
      cases hm : it.num_commands with
      | zero => rfl
      | succ m => rw [SegmentIter.segToListGo_succ_none m hn]
  | some r =>
      obtain ⟨seg, it'⟩ := r
      have hlt := (SegmentIter.next_some hn).1
      simp only [SegmentIter.toList]
      cases hm : it.num_commands with
      | zero =>
          rw [SegmentIter.next_none_zero it hm] at hn
          exact absurd hn (by simp)
      | succ m =>
          rw [SegmentIter.segToListGo_succ_some m hn]
          rw [hm] at hlt
          rw [SegmentIter.segToListGo_eq m it' (by omega)]
          rfl

theorem Segment.sections_count (seg : Segment) : seg.sections.count = seg.nsects := by
  cases seg <;> rfl

theorem AllSectionsIter.innerCount_zero (osi : Option SectionIter)
    (h : osi.bind SectionIter.next = none) : AllSectionsIter.innerCount osi = 0 := by
  cases osi with
  | none => rfl
  | some si =>
      rw [Option.some_bind'] at h
      exact (SectionIter.next_none_iff si).mp h

theorem AllSectionsIter.nextGo_eq (fuel : Nat) (it : AllSectionsIter) :
    AllSectionsIter.nextGo fuel it =
      match it.sections.bind SectionIter.next with
      | some (s, si') => some (s, ⟨it.segments, some si'⟩)
      | none =>
          match it.segments.next with
          | none => none
          | some (seg, segIt') =>
              match fuel with
              | 0 => none
              | fuel' + 1 =>
                  AllSectionsIter.nextGo fuel' ⟨segIt', some seg.sections⟩ := by
  rw [AllSectionsIter.nextGo]

theorem AllSectionsIter.nextGo_inner_some {it : AllSectionsIter} {s : Section}
    {si' : SectionIter} (fuel : Nat)
    (h : it.sections.bind SectionIter.next = some (s, si')) :
    AllSectionsIter.nextGo fuel it = some (s, ⟨it.segments, some si'⟩) := by
  rw [AllSectionsIter.nextGo_eq, h]

theorem AllSectionsIter.nextGo_outer_none {it : AllSectionsIter} (fuel : Nat)
    (h1 : it.sections.bind SectionIter.next = none)
    (h2 : it.segments.next = none) :
    AllSectionsIter.nextGo fuel it = none := by
  rw [AllSectionsIter.nextGo_eq, h1, h2]

theorem AllSectionsIter.nextGo_advance {it : AllSectionsIter} {seg : Segment}
    {segIt' : SegmentIter} (fuel : Nat)
    (h1 : it.sections.bind SectionIter.next = none)
    (h2 : it.segments.next = some (seg, segIt')) :
    AllSectionsIter.nextGo (fuel + 1) it =
      AllSectionsIter.nextGo fuel ⟨segIt', some seg.sections⟩ := by
  rw [AllSectionsIter.nextGo_eq, h1, h2]

theorem AllSectionsIter.nextGo_advance_zero {it : AllSectionsIter} {seg : Segment}
    {segIt' : SegmentIter}
    (h1 : it.sections.bind SectionIter.next = none)
    (h2 : it.segments.next = some (seg, segIt')) :
    AllSectionsIter.nextGo 0 it = none := by
  rw [AllSectionsIter.nextGo_eq, h1, h2]

theorem AllSectionsIter.nextGo_congr :
    ∀ (n : Nat) (it : AllSectionsIter) (f1 f2 : Nat),
      it.segments.num_commands = n → n ≤ f1 → n ≤ f2 →
      AllSectionsIter.nextGo f1 it = AllSectionsIter.nextGo f2 it := by
  intro n
  induction n using Nat.strongRecOn with
  | _ n ih =>
    intro it f1 f2 hn h1 h2
    cases hi : it.sections.bind SectionIter.next with
    | some r =>
        obtain ⟨s, si'⟩ := r
        rw [AllSectionsIter.nextGo_inner_some f1 hi,
          AllSectionsIter.nextGo_inner_some f2 hi]
    | none =>
        cases ho : it.segments.next with
        | none =>
            rw [AllSectionsIter.nextGo_outer_none f1 hi ho,
              AllSectionsIter.nextGo_outer_none f2 hi ho]
        | some r =>
            obtain ⟨seg, segIt'⟩ := r
            have hlt := (SegmentIter.next_some ho).1
            rw [hn] at hlt
            obtain ⟨a, rfl⟩ : ∃ a, f1 = a + 1 := ⟨f1 - 1, by omega⟩
            obtain ⟨b, rfl⟩ : ∃ b, f2 = b + 1 := ⟨f2 - 1, by omega⟩
            rw [AllSectionsIter.nextGo_advance a hi ho,
              AllSectionsIter.nextGo_advance b hi ho]
            exact ih segIt'.num_commands (by omega)
              ⟨segIt', some seg.sections⟩ a b rfl (by omega) (by omega)

theorem AllSectionsIter.nextGo_eq_next {it : AllSectionsIter} {fuel : Nat}
    (h : it.segments.num_commands ≤ fuel) :
    AllSectionsIter.nextGo fuel it = it.next :=
  AllSectionsIter.nextGo_congr it.segments.num_commands it fuel
    it.segments.num_commands rfl h (Nat.le_refl _)

theorem AllSectionsIter.next_inner (it : AllSectionsIter) {s : Section}
    {si' : SectionIter} (h : it.sections.bind SectionIter.next = some (s, si')) :
    it.next = some (s, ⟨it.segments, some si'⟩) :=
  AllSectionsIter.nextGo_inner_some it.segments.num_commands h

theorem AllSectionsIter.next_none (it : AllSectionsIter)
    (h1 : it.sections.bind SectionIter.next = none)
    (h2 : it.segments.next = none) : it.next = none :=
  AllSectionsIter.nextGo_outer_none it.segments.num_commands h1 h2

theorem AllSectionsIter.next_advance (it : AllSectionsIter) {seg : Segment}
    {segIt' : SegmentIter}
    (h1 : it.sections.bind SectionIter.next = none)
    (h2 : it.segments.next = some (seg, segIt')) :
    it.next = AllSectionsIter.next ⟨segIt', some seg.sections⟩ := by
  have hlt := (SegmentIter.next_some h2).1
  obtain ⟨m, hm⟩ : ∃ m, it.segments.num_commands = m + 1 :=
    ⟨it.segments.num_commands - 1, by omega⟩
  show AllSectionsIter.nextGo it.segments.num_commands it =
    AllSectionsIter.nextGo segIt'.num_commands ⟨segIt', some seg.sections⟩
  rw [hm, AllSectionsIter.nextGo_advance m h1 h2]
  exact AllSectionsIter.nextGo_congr segIt'.num_commands
    ⟨segIt', some seg.sections⟩ m segIt'.num_commands rfl (by omega) (Nat.le_refl _)

theorem AllSectionsIter.sumNsects_advance {segIt segIt' : SegmentIter}
    {seg : Segment} (h : segIt.next = some (seg, segIt')) :
    ((segIt.toList.map Segment.nsects).sum) =
      seg.nsects + ((segIt'.toList.map Segment.nsects).sum) := by
  rw [SegmentIter.segToList_unfold, h]
  simp

theorem AllSectionsIter.next_bound :
    ∀ (fuel : Nat) (it : AllSectionsIter) {s : Section} {it' : AllSectionsIter},
      AllSectionsIter.nextGo fuel it = some (s, it') → it'.bound < it.bound := by
  intro fuel
  induction fuel with
  | zero =>
      intro it s it' h
      cases hi : it.sections.bind SectionIter.next with
      | some r =>
          obtain ⟨s0, si'⟩ := r
          rw [AllSectionsIter.nextGo_inner_some 0 hi] at h
          simp only [Option.some.injEq, Prod.mk.injEq] at h
          rw [← h.2]
          cases hsi : it.sections with
          | none => rw [hsi] at hi; simp at hi
          | some si =>
              rw [hsi] at hi
              rw [Option.some_bind'] at hi
              have := SectionIter.next_count hi
              simp only [AllSectionsIter.bound, AllSectionsIter.innerCount, hsi]
              omega
      | none =>
          cases ho : it.segments.next with
          | none => rw [AllSectionsIter.nextGo_outer_none 0 hi ho] at h; exact absurd h (by simp)
          | some r =>
              obtain ⟨seg, segIt'⟩ := r
              rw [AllSectionsIter.nextGo_advance_zero hi ho] at h
              exact absurd h (by simp)
  | succ fuel ih =>
      intro it s it' h
      cases hi : it.sections.bind SectionIter.next with
      | some r =>
          obtain ⟨s0, si'⟩ := r
          rw [AllSectionsIter.nextGo_inner_some (fuel + 1) hi] at h
          simp only [Option.some.injEq, Prod.mk.injEq] at h
          rw [← h.2]
          cases hsi : it.sections with
          | none => rw [hsi] at hi; simp at hi
          | some si =>
              rw [hsi] at hi
              rw [Option.some_bind'] at hi
              have := SectionIter.next_count hi
              simp only [AllSectionsIter.bound, AllSectionsIter.innerCount, hsi]
              omega
      | none =>
          cases ho : it.segments.next with
          | none => rw [AllSectionsIter.nextGo_outer_none (fuel + 1) hi ho] at h; exact absurd h (by simp)
          | some r =>
              obtain ⟨seg, segIt'⟩ := r
              rw [AllSectionsIter.nextGo_advance fuel hi ho] at h
              have hrec := ih ⟨segIt', some seg.sections⟩ h
              have hb : it.bound =
                  (⟨segIt', some seg.sections⟩ : AllSectionsIter).bound := by
                simp only [AllSectionsIter.bound]
                rw [AllSectionsIter.innerCount_zero it.sections hi,
                  AllSectionsIter.sumNsects_advance ho]
                simp only [AllSectionsIter.innerCount, Segment.sections_count]
                omega
              omega


theorem AllSectionsIter.next_bound_lt (it : AllSectionsIter) {s : Section}
    {it' : AllSectionsIter} (h : it.next = some (s, it')) : it'.bound < it.bound :=
  AllSectionsIter.next_bound it.segments.num_commands it h

theorem AllSectionsIter.allToListGo_succ_none {it : AllSectionsIter} (fuel : Nat)
    (h : it.next = none) : AllSectionsIter.toListGo (fuel + 1) it = [] := by
  simp only [AllSectionsIter.toListGo]
  rw [h]

theorem AllSectionsIter.allToListGo_succ_some {it : AllSectionsIter} {s : Section}
    {it' : AllSectionsIter} (fuel : Nat) (h : it.next = some (s, it')) :
    AllSectionsIter.toListGo (fuel + 1) it = s :: AllSectionsIter.toListGo fuel it' := by
  simp only [AllSectionsIter.toListGo]
  rw [h]

theorem AllSectionsIter.allToListGo_eq :
    ∀ (n : Nat) (it : AllSectionsIter), it.bound ≤ n →
      AllSectionsIter.toListGo n it = it.toList := by
  intro n
  induction n using Nat.strongRecOn with
  | _ n ih =>
    intro it hle
    match n with
    | 0 =>
        have h0 : it.bound = 0 := Nat.le_zero.mp hle
        rw [AllSectionsIter.toList, h0]
    | n + 1 =>
        cases hn : it.next with
        | none =>
            rw [AllSectionsIter.allToListGo_succ_none n hn]
            simp only [AllSectionsIter.toList]
            cases hb : it.bound with
            | zero => rfl
            | succ b => rw [AllSectionsIter.allToListGo_succ_none b hn]
        | some r =>
            obtain ⟨s, it'⟩ := r
            have hlt := AllSectionsIter.next_bound_lt it hn
            rw [AllSectionsIter.allToListGo_succ_some n hn]
            simp only [AllSectionsIter.toList]
            cases hb : it.bound with
            | zero => rw [hb] at hlt; omega
            | succ b =>
                rw [AllSectionsIter.allToListGo_succ_some b hn]
                rw [hb] at hlt
                rw [ih n (Nat.lt_succ_self n) it' (by omega)]
                rw [ih b (by omega) it' (by omega)]

theorem AllSectionsIter.allToList_unfold (it : AllSectionsIter) :
    it.toList = match it.next with
      | none => []
      | some (s, it') => s :: it'.toList := by
  cases hn : it.next with
  | none =>
      simp only [AllSectionsIter.toList]
      cases hb : it.bound with
      | zero => rfl
      | succ b => rw [AllSectionsIter.allToListGo_succ_none b hn]
  | some r =>
      obtain ⟨s, it'⟩ := r
      have hlt := AllSectionsIter.next_bound_lt it hn
      simp only [AllSectionsIter.toList]
      cases hb : it.bound with
      | zero => rw [hb] at hlt; omega
      | succ b =>
          rw [AllSectionsIter.allToListGo_succ_some b hn]
          rw [hb] at hlt
          rw [AllSectionsIter.allToListGo_eq b it' (by omega)]
          rfl

theorem AllSectionsIter.toList_congr {X Y : AllSectionsIter}
    (h : X.next = Y.next) : X.toList = Y.toList := by
  conv_lhs => rw [AllSectionsIter.allToList_unfold]
  conv_rhs => rw [AllSectionsIter.allToList_unfold]
  rw [h]

theorem AllSectionsIter.toList_inner :
    ∀ (n : Nat) (si : SectionIter) (segIt : SegmentIter), si.count = n →
      AllSectionsIter.toList ⟨segIt, some si⟩ =
        si.toList ++ AllSectionsIter.toList ⟨segIt, none⟩ := by
  intro n
  induction n with
  | zero =>
      intro si segIt hc
      have hnone : si.next = none := (SectionIter.next_none_iff si).mpr hc
      have hbind : (some si).bind SectionIter.next = none := by
        rw [Option.some_bind']
        exact hnone
      have hXY : AllSectionsIter.next ⟨segIt, some si⟩ =
          AllSectionsIter.next ⟨segIt, none⟩ := by
        cases ho : segIt.next with
        | none =>
            rw [AllSectionsIter.next_none ⟨segIt, some si⟩ hbind ho,
              AllSectionsIter.next_none ⟨segIt, none⟩ rfl ho]
        | some r =>
            obtain ⟨seg, segIt'⟩ := r
            rw [AllSectionsIter.next_advance ⟨segIt, some si⟩ hbind ho,
              AllSectionsIter.next_advance ⟨segIt, none⟩ rfl ho]
      have hsi0 : si.toList = [] := by
        rw [SectionIter.toList, hc]
        rfl
      rw [AllSectionsIter.toList_congr hXY, hsi0, List.nil_append]
  | succ n ih =>
      intro si segIt hc
      cases hnext : si.next with
      | none =>
          rw [SectionIter.next_none_iff] at hnext
          omega
      | some r =>
          obtain ⟨s, si'⟩ := r
          have hbind : (some si).bind SectionIter.next = some (s, si') := by
            rw [Option.some_bind']
            exact hnext
          have e1 : AllSectionsIter.next ⟨segIt, some si⟩ =
              some (s, ⟨segIt, some si'⟩) :=
            AllSectionsIter.next_inner ⟨segIt, some si⟩ hbind
          have l1 : AllSectionsIter.toList ⟨segIt, some si⟩ =
              s :: AllSectionsIter.toList ⟨segIt, some si'⟩ := by
            conv_lhs => rw [AllSectionsIter.allToList_unfold]
            rw [e1]
          have l2 : si.toList = s :: si'.toList := by
            conv_lhs => rw [SectionIter.secToList_unfold]
            rw [hnext]
          have hcount : si'.count = n := by
            have := SectionIter.next_count hnext
            omega
          rw [l1, l2, ih si' segIt hcount, List.cons_append]

theorem AllSectionsIter.toList_join :
    ∀ (n : Nat) (segIt : SegmentIter), segIt.num_commands = n →
      AllSectionsIter.toList ⟨segIt, none⟩ =
        (segIt.toList.map (fun seg => seg.sections.toList)).flatten := by
  intro n
  induction n using Nat.strongRecOn with
  | _ n ih =>
    intro segIt hn
    cases ho : segIt.next with
    | none =>
        have e : AllSectionsIter.next ⟨segIt, none⟩ = none :=
          AllSectionsIter.next_none ⟨segIt, none⟩ rfl ho
        have l1 : AllSectionsIter.toList ⟨segIt, none⟩ = [] := by
          conv_lhs => rw [AllSectionsIter.allToList_unfold]
          rw [e]
        have l2 : segIt.toList = [] := by
          conv_lhs => rw [SegmentIter.segToList_unfold]
          rw [ho]
        rw [l1, l2]
        rfl
    | some r =>
        obtain ⟨seg, segIt'⟩ := r
        have hlt := (SegmentIter.next_some ho).1
        have e : AllSectionsIter.next ⟨segIt, none⟩ =
            AllSectionsIter.next ⟨segIt', some seg.sections⟩ :=
          AllSectionsIter.next_advance ⟨segIt, none⟩ rfl ho
        have l4 : segIt.toList = seg :: segIt'.toList := by
          conv_lhs => rw [SegmentIter.segToList_unfold]
          rw [ho]
        rw [AllSectionsIter.toList_congr e,
          AllSectionsIter.toList_inner seg.sections.count seg.sections segIt' rfl,
          ih segIt'.num_commands (by omega) segIt' rfl, l4,
          List.map_cons, List.flatten_cons]

/-- Shared structural identity: the flat all-sections sequence of an image
is the concatenation, in segment order, of each segment's own section
sequence. -/
theorem allSections_toList (sh : SharedLibrary) :
    sh.sections.toList =
      (sh.segments.toList.map (fun seg => seg.sections.toList)).flatten :=
  AllSectionsIter.toList_join sh.segments.num_commands sh.segments rfl

theorem allSections_length (sh : SharedLibrary) :
    sh.sections.toList.length = (sh.segments.toList.map Segment.nsects).sum := by
  rw [allSections_toList, List.length_flatten, List.map_map]
  have hf : ((fun l => List.length l) ∘ fun seg => (Segment.sections seg).toList)
      = Segment.nsects := by
    funext seg
    simp only [Function.comp]
    rw [SectionIter.toList_length, Segment.sections_count]
  rw [hf]

theorem list_any_flatten {α : Type} (L : List (List α)) (p : α → Bool) :
    L.flatten.any p = L.any (fun l => l.any p) := by
  induction L with
  | nil => rfl
  | cons l L ih => rw [List.flatten_cons, List.any_append, List.any_cons, ih]

theorem list_any_on_map {α β : Type} (f : α → β) (l : List α) (p : β → Bool) :
    (l.map f).any p = l.any (fun a => p (f a)) := by
  induction l with
  | nil => rfl
  | cons x xs ih => simp only [List.map_cons, List.any_cons, ih]

theorem list_find_first {α : Type} {l : List α} {p : α → Bool} {a : α}
    (h : l.find? p = some a) :
    ∃ l1 l2, l = l1 ++ a :: l2 ∧ p a = true ∧ ∀ x ∈ l1, p x = false := by
  induction l with
  | nil => simp [List.find?] at h
  | cons x xs ih =>
      rw [List.find?] at h
      cases hp : p x with
      | true =>
          rw [hp] at h
          simp only [Option.some.injEq] at h
          refine ⟨[], xs, ?_, ?_, ?_⟩
          · rw [h]
            rfl
          · rw [← h]
            exact hp
          · intro y hy
            simp at hy
      | false =>
          rw [hp] at h
          obtain ⟨l1, l2, heq, hpa, hl1⟩ := ih h
          refine ⟨x :: l1, l2, ?_, hpa, ?_⟩
          · rw [heq]
            rfl
          · intro y hy
            rcases List.mem_cons.mp hy with hy | hy
            · rw [hy]
              exact hp
            · exact hl1 y hy

/-- Shared characterization of the `each` loop: over a table whose slots
satisfy the loader contract, the callback is fed exactly the recognized
images, in ascending index order, until it breaks or they are
exhausted. -/
theorem eachFrom_spec {σ : Type} (mem : MachMem)
    (f : σ → SharedLibrary → σ × IterationControl) :
    ∀ (slots : List DyldSlot), slots.all (slotOkB mem) = true →
    ∀ (s : σ), eachFrom mem f s slots =
      some (stTakeUntilBreak f s (recognizedImages mem slots)) := by
  intro slots
  induction slots with
  | nil => intro _ s; rfl
  | cons slot rest ih =>
      intro hall s
      rw [List.all_cons, Bool.and_eq_true] at hall
      obtain ⟨hok, hrest⟩ := hall
      cases hh : MachHeader.from_header_ptr mem slot.headerAddr with
      | none =>
          simp only [eachFrom, recognizedImages, hh]
          exact ih hrest s
      | some header =>
          simp only [slotOkB, hh, Bool.and_eq_true, bne_iff_ne,
            Option.isSome_iff_exists] at hok
          obtain ⟨hs, nm, hnm⟩ := hok
          simp only [eachFrom, recognizedImages, hh, hnm, if_neg hs]
          simp only [stTakeUntilBreak]
          cases hfr : (f s (SharedLibrary.new header slot.slide nm)).2 with
          | Break => simp only [hfr]
          | Continue =>
              simp only [hfr]
              rw [ih hrest (f s (SharedLibrary.new header slot.slide nm)).1]
              rfl

/-- Images visited by `each` carry exactly the name bytes recorded at
their slot; in particular they are non-empty whenever the table's name
strings are. -/
theorem eachFrom_names {σ : Type} (mem : MachMem)
    (f : σ → SharedLibrary → σ × IterationControl) :
    ∀ (slots : List DyldSlot),
      (∀ slot ∈ slots, slot.nameAddr ≠ some ([] : List Nat)) →
      ∀ (s : σ) (l : List SharedLibrary) (sf : σ),
        eachFrom mem f s slots = some (l, sf) →
        ∀ sh ∈ l, sh.name ≠ ([] : List Nat) := by
  intro slots
  induction slots with
  | nil =>
      intro _ s l sf h sh hm
      simp only [eachFrom, Option.some.injEq, Prod.mk.injEq] at h
      rw [← h.1] at hm
      simp at hm
  | cons slot rest ih =>
      intro ht s l sf h sh hm
      cases hh : MachHeader.from_header_ptr mem slot.headerAddr with
      | none =>
          simp only [eachFrom, hh] at h
          exact ih (fun sl hsl => ht sl (List.mem_cons_of_mem _ hsl)) s l sf h sh hm
      | some header =>
          by_cases hs : slot.slide = 0
          · simp only [eachFrom, hh, if_pos hs] at h
            simp at h
          · cases hnm : slot.nameAddr with
            | none =>
                simp only [eachFrom, hh, if_neg hs, hnm] at h
                simp at h
            | some nm =>
                simp only [eachFrom, hh, if_neg hs, hnm] at h
                have hnm0 : nm ≠ ([] : List Nat) := by
                  intro hcon
                  exact ht slot (List.mem_cons_self _ _) (by rw [hnm, hcon])
                cases hfr : (f s (SharedLibrary.new header slot.slide nm)).2 with
                | Break =>
                    rw [hfr] at h
                    simp only [Option.some.injEq, Prod.mk.injEq] at h
                    rw [← h.1] at hm
                    simp only [List.mem_singleton] at hm
                    rw [hm]
                    exact hnm0
                | Continue =>
                    rw [hfr] at h
                    rcases Option.map_eq_some'.mp h with ⟨r, hr, hmap⟩
                    simp only [Prod.mk.injEq] at hmap
                    rw [← hmap.1] at hm
                    rcases List.mem_cons.mp hm with hsh | hsh
                    · rw [hsh]
                      exact hnm0
                    · exact ih (fun sl hsl => ht sl (List.mem_cons_of_mem _ hsl))
                        (f s (SharedLibrary.new header slot.slide nm)).1 r.1 r.2
                        (by rw [hr]) sh hsh

theorem stTakeUntilBreak_continue :
    ∀ (l : List SharedLibrary) (c : Nat),
      (stTakeUntilBreak countContinue c l).1 = l := by
  intro l
  induction l with
  | nil => intro c; rfl
  | cons x xs ih =>
      intro c
      simp only [stTakeUntilBreak, countContinue]
      rw [ih (c + 1)]

theorem stTakeUntilBreak_breakAt :
    ∀ (l : List SharedLibrary) (c K : Nat), c < K →
      (stTakeUntilBreak (countBreakAt K) c l).1 = l.take (K - c) := by
  intro l
  induction l with
  | nil => intro c K h; simp [stTakeUntilBreak]
  | cons x xs ih =>
      intro c K h
      by_cases hK : c + 1 = K
      · have h1 : K - c = 1 := by omega
        simp only [stTakeUntilBreak, countBreakAt, if_pos hK]
        rw [h1]
        rfl
      · have h2 : c + 1 < K := by omega
        simp only [stTakeUntilBreak, countBreakAt, if_neg hK]
        rw [ih (c + 1) K h2]
        obtain ⟨d, hd⟩ : ∃ d, K - c = d + 1 := ⟨K - c - 1, by omega⟩
        rw [hd]
        have hd2 : K - (c + 1) = d := by omega
        rw [hd2, List.take_succ_cons]

theorem usizeCast_eq {n : Nat} (h : n ≤ USIZE_MAX) : usizeCast n = n := by
  have h2 : n < USIZE_MAX + 1 := by omega
  simp only [usizeCast]
  exact Nat.mod_eq_of_lt h2

/-! Claim theorems. -/

/-- C1: for every loader table state and every callback, `each` invokes
the callback exactly once per image whose header magic is recognized, in
ascending image-index order, and the loop stops either at the first
callback invocation that returns Break or after the last index: the
visited sequence equals feeding the recognized images, in table order, to
the callback until it breaks or they are exhausted. -/
theorem c1_each_visits_recognized_in_order {σ : Type}
    (f : σ → SharedLibrary → σ × IterationControl) (s : σ) (st : DyldState)
    (h : wellFormedB st = true) :
    eachRun f s st =
      some (stTakeUntilBreak f s (recognizedImages st.mem st.images)) :=
  eachFrom_spec st.mem f st.images h s

/-- Witness for C1 at a concrete two-image loader table. -/
theorem c1_each_visits_recognized_in_order_witness :
    wellFormedB stW = true ∧
    eachRun countContinue 0 stW =
      some (stTakeUntilBreak countContinue 0 (recognizedImages stW.mem stW.images)) :=
  ⟨rfl, c1_each_visits_recognized_in_order countContinue 0 stW rfl⟩

/-- C2: two-run determinism of enumeration over the same unchanged table:
if a full run visits the list `l` (of length N), a second run whose
counting callback returns Break on its (N−1)-th invocation visits exactly
the first N−1 images of `l`, in the same order, and no more. -/
theorem c2_two_run_break_determinism (st : DyldState) (l : List SharedLibrary)
    (sf : Nat) (h : wellFormedB st = true)
    (hrun : eachRun countContinue 0 st = some (l, sf))
    (hlen : 2 ≤ l.length) :
    ∃ c', eachRun (countBreakAt (l.length - 1)) 0 st =
      some (l.take (l.length - 1), c') := by
  have hrun' : eachFrom st.mem countContinue 0 st.images = some (l, sf) := hrun
  rw [eachFrom_spec st.mem countContinue st.images h 0] at hrun'
  simp only [Option.some.injEq] at hrun'
  have hl : recognizedImages st.mem st.images = l := by
    have h1 := congrArg Prod.fst hrun'
    rw [stTakeUntilBreak_continue] at h1
    exact h1
  refine ⟨(stTakeUntilBreak (countBreakAt (l.length - 1)) 0 l).2, ?_⟩
  show eachFrom st.mem (countBreakAt (l.length - 1)) 0 st.images = _
  rw [eachFrom_spec st.mem (countBreakAt (l.length - 1)) st.images h 0, hl]
  have h3 := stTakeUntilBreak_breakAt l 0 (l.length - 1) (by omega)
  rw [Nat.sub_zero] at h3
  exact congrArg some (Prod.ext h3 rfl)

/-- Witness for C2 at a concrete two-image loader table. -/
theorem c2_two_run_break_determinism_witness :
    wellFormedB stW = true ∧
    eachRun countContinue 0 stW = some ([shW, shWb], 2) ∧
    2 ≤ ([shW, shWb] : List SharedLibrary).length ∧
    ∃ c', eachRun (countBreakAt (([shW, shWb] : List SharedLibrary).length - 1)) 0 stW =
      some (([shW, shWb] : List SharedLibrary).take
        (([shW, shWb] : List SharedLibrary).length - 1), c') :=
  ⟨rfl, rfl, by decide,
    c2_two_run_break_determinism stW [shW, shWb] 2 rfl rfl (by decide)⟩

/-- C3: each step of the segment walker reads the current load command's
type tag and declared byte size; on the 32-bit or 64-bit segment tag it
yields the typed segment view at the cursor and advances the cursor by
the declared `cmdsize`; on any other tag it advances by the same declared
size without yielding; and stepping a walker whose remaining-command
counter is zero yields nothing. -/
theorem c3_segment_iter_step :
    (∀ (mem : MachMem) (p : Nat), SegmentIter.next ⟨mem, p, 0⟩ = none) ∧
    (∀ (mem : MachMem) (p n : Nat), (mem.cmdAt p).cmd = LC_SEGMENT →
      SegmentIter.next ⟨mem, p, n + 1⟩ =
        some (Segment.segment32 mem p, ⟨mem, p + (mem.cmdAt p).cmdsize, n⟩)) ∧
    (∀ (mem : MachMem) (p n : Nat), (mem.cmdAt p).cmd = LC_SEGMENT_64 →
      SegmentIter.next ⟨mem, p, n + 1⟩ =
        some (Segment.segment64 mem p, ⟨mem, p + (mem.cmdAt p).cmdsize, n⟩)) ∧
    (∀ (mem : MachMem) (p n : Nat),
      (mem.cmdAt p).cmd ≠ LC_SEGMENT → (mem.cmdAt p).cmd ≠ LC_SEGMENT_64 →
      SegmentIter.next ⟨mem, p, n + 1⟩ =
        SegmentIter.next ⟨mem, p + (mem.cmdAt p).cmdsize, n⟩) := by
  refine ⟨fun mem p => rfl, ?_, ?_, ?_⟩
  · intro mem p n h
    show SegmentIter.nextGo mem p (n + 1) = _
    rw [SegmentIter.nextGo]
    simp [h, LC_SEGMENT, LC_SEGMENT_64]
  · intro mem p n h
    show SegmentIter.nextGo mem p (n + 1) = _
    rw [SegmentIter.nextGo]
    simp [h, LC_SEGMENT, LC_SEGMENT_64]
  · intro mem p n h1 h2
    show SegmentIter.nextGo mem p (n + 1) = _
    rw [SegmentIter.nextGo]
    simp only [if_neg h1, if_neg h2]
    rfl

/-- Witness for C3: a segment-tagged command is yielded with the cursor
advanced by its declared size, and an unrecognized tag is skipped. -/
theorem c3_segment_iter_step_witness :
    (memW.cmdAt 0).cmd = LC_SEGMENT ∧
    SegmentIter.next ⟨memW, 0, 1⟩ =
      some (Segment.segment32 memW 0, ⟨memW, 0 + (memW.cmdAt 0).cmdsize, 0⟩) ∧
    (memU.cmdAt 0).cmd ≠ LC_SEGMENT ∧
    (memU.cmdAt 0).cmd ≠ LC_SEGMENT_64 ∧
    SegmentIter.next ⟨memU, 0, 1⟩ =
      SegmentIter.next ⟨memU, 0 + (memU.cmdAt 0).cmdsize, 0⟩ :=
  ⟨rfl, c3_segment_iter_step.2.1 memW 0 0 rfl, by decide, by decide,
    c3_segment_iter_step.2.2.2 memU 0 0 (by decide) (by decide)⟩

/-- C4: structural identity of the flattened view: the all-sections
sequence of an image is the concatenation, in segment order, of each
segment's own section sequence (so the sections of each segment appear
contiguously), and its total length is the sum of each yielded segment's
own `nsects` field. -/
theorem c4_all_sections_structural_identity (sh : SharedLibrary) :
    sh.sections.toList =
      (sh.segments.toList.map (fun seg => seg.sections.toList)).flatten ∧
    sh.sections.toList.length = (sh.segments.toList.map Segment.nsects).sum :=
  ⟨allSections_toList sh, allSections_length sh⟩

/-- C5: the named lookups return some view exactly when some section of
the flat all-sections sequence has name bytes equal to the fixed literal
(`__eh_frame_hdr`, resp. `__eh_frame`), and a returned view wraps the
first such section in flat scan order. -/
theorem c5_named_lookup_first_match :
    (∀ sh : SharedLibrary, (sh.eh_frame_hdr).isSome = true ↔
      ∃ s ∈ sh.sections.toList, s.name = EH_FRAME_HDR_NAME) ∧
    (∀ (sh : SharedLibrary) (e : EhFrameHdr), sh.eh_frame_hdr = some e →
      ∃ l1 l2, sh.sections.toList = l1 ++ e.sec :: l2 ∧
        e.sec.name = EH_FRAME_HDR_NAME ∧
        ∀ s ∈ l1, s.name ≠ EH_FRAME_HDR_NAME) ∧
    (∀ sh : SharedLibrary, (sh.eh_frame).isSome = true ↔
      ∃ s ∈ sh.sections.toList, s.name = EH_FRAME_NAME) ∧
    (∀ (sh : SharedLibrary) (e : EhFrame), sh.eh_frame = some e →
      ∃ l1 l2, sh.sections.toList = l1 ++ e.sec :: l2 ∧
        e.sec.name = EH_FRAME_NAME ∧
        ∀ s ∈ l1, s.name ≠ EH_FRAME_NAME) := by
  refine ⟨?_, ?_, ?_, ?_⟩
  · intro sh
    simp [SharedLibrary.eh_frame_hdr, List.find?_isSome]
  · intro sh e h
    simp only [SharedLibrary.eh_frame_hdr] at h
    rcases Option.map_eq_some'.mp h with ⟨a, hfind, hmk⟩
    rcases list_find_first hfind with ⟨l1, l2, heq, hpa, hl1⟩
    rw [← hmk]
    refine ⟨l1, l2, heq, by simpa using hpa, ?_⟩
    intro s hs
    have := hl1 s hs
    simpa using this
  · intro sh
    simp [SharedLibrary.eh_frame, List.find?_isSome]
  · intro sh e h
    simp only [SharedLibrary.eh_frame] at h
    rcases Option.map_eq_some'.mp h with ⟨a, hfind, hmk⟩
    rcases list_find_first hfind with ⟨l1, l2, heq, hpa, hl1⟩
    rw [← hmk]
    refine ⟨l1, l2, heq, by simpa using hpa, ?_⟩
    intro s hs
    have := hl1 s hs
    simpa using this

/-- Witness for C5 at a concrete image with one segment holding one
section named `__eh_frame_hdr`. -/
theorem c5_named_lookup_first_match_witness :
    shW.eh_frame_hdr =
      some (EhFrameHdr.mk (Section.section32 ⟨EH_FRAME_HDR_NAME ++ [0, 0], 4096, 64⟩)) ∧
    ∃ l1 l2, shW.sections.toList =
        l1 ++ (EhFrameHdr.mk (Section.section32
          ⟨EH_FRAME_HDR_NAME ++ [0, 0], 4096, 64⟩)).sec :: l2 ∧
      (EhFrameHdr.mk (Section.section32
        ⟨EH_FRAME_HDR_NAME ++ [0, 0], 4096, 64⟩)).sec.name = EH_FRAME_HDR_NAME ∧
      ∀ s ∈ l1, s.name ≠ EH_FRAME_HDR_NAME :=
  ⟨rfl, c5_named_lookup_first_match.2.1 shW
    (EhFrameHdr.mk (Section.section32 ⟨EH_FRAME_HDR_NAME ++ [0, 0], 4096, 64⟩)) rfl⟩

/-- C6: for every image and every section name, scanning the flat
all-sections sequence and scanning via the nested segment-then-section
walk report the same boolean outcome for whether a section with exactly
that name exists; in particular they agree for the unwind-frame name. -/
theorem c6_flat_nested_scan_agree :
    (∀ (sh : SharedLibrary) (nm : List Nat),
      sh.sections.toList.any (fun s => s.name == nm) =
        sh.segments.toList.any
          (fun seg => seg.sections.toList.any (fun s => s.name == nm))) ∧
    (∀ sh : SharedLibrary,
      sh.sections.toList.any (fun s => s.name == EH_FRAME_NAME) =
        sh.segments.toList.any
          (fun seg => seg.sections.toList.any (fun s => s.name == EH_FRAME_NAME))) := by
  have key : ∀ (sh : SharedLibrary) (nm : List Nat),
      sh.sections.toList.any (fun s => s.name == nm) =
        sh.segments.toList.any
          (fun seg => seg.sections.toList.any (fun s => s.name == nm)) := by
    intro sh nm
    rw [allSections_toList, list_any_flatten, list_any_on_map]
  exact ⟨key, fun sh => key sh EH_FRAME_NAME⟩

/-- C7: during `each`, a slot with a null header pointer or an
unrecognized header magic is skipped silently (the callback is never
invoked for it and the run's outcome is that of the remaining slots),
while a recognized slot with zero slide, or with a null name pointer, is
a fatal assertion failure (the whole run aborts) rather than an error. -/
theorem c7_skip_unrecognized_abort_invalid :
    (∀ mem : MachMem, MachHeader.from_header_ptr mem none = none) ∧
    (∀ (mem : MachMem) (a : Nat), (mem.headerAt a).magic ≠ MH_MAGIC →
      (mem.headerAt a).magic ≠ MH_MAGIC_64 →
      MachHeader.from_header_ptr mem (some a) = none) ∧
    (∀ (σ : Type) (mem : MachMem) (f : σ → SharedLibrary → σ × IterationControl)
      (s : σ) (slot : DyldSlot) (rest : List DyldSlot),
      MachHeader.from_header_ptr mem slot.headerAddr = none →
      eachFrom mem f s (slot :: rest) = eachFrom mem f s rest) ∧
    (∀ (σ : Type) (mem : MachMem) (f : σ → SharedLibrary → σ × IterationControl)
      (s : σ) (slot : DyldSlot) (rest : List DyldSlot) (header : MachHeader),
      MachHeader.from_header_ptr mem slot.headerAddr = some header →
      slot.slide = 0 → eachFrom mem f s (slot :: rest) = none) ∧
    (∀ (σ : Type) (mem : MachMem) (f : σ → SharedLibrary → σ × IterationControl)
      (s : σ) (slot : DyldSlot) (rest : List DyldSlot) (header : MachHeader),
      MachHeader.from_header_ptr mem slot.headerAddr = some header →
      slot.nameAddr = none → eachFrom mem f s (slot :: rest) = none) := by
  refine ⟨fun mem => rfl, ?_, ?_, ?_, ?_⟩
  · intro mem a h1 h2
    simp only [MachHeader.from_header_ptr, MachType.from_header_ptr,
      Option.some_bind', if_neg h1, if_neg h2]
    rfl
  · intro σ mem f s slot rest h
    simp only [eachFrom, h]
  · intro σ mem f s slot rest header h h0
    simp only [eachFrom, h, if_pos h0]
  · intro σ mem f s slot rest header h hn
    simp only [eachFrom, h, hn]
    by_cases h0 : slot.slide = 0
    · rw [if_pos h0]
    · rw [if_neg h0]

/-- Witness for C7: an unrecognized-magic slot classifies to nothing, and
a recognized slot with zero slide aborts the run. -/
theorem c7_skip_unrecognized_abort_invalid_witness :
    (memU.headerAt 5).magic ≠ MH_MAGIC ∧
    (memU.headerAt 5).magic ≠ MH_MAGIC_64 ∧
    MachHeader.from_header_ptr memU (some 5) = none ∧
    MachHeader.from_header_ptr memW
      (DyldSlot.mk (some 0) 0 (some [47])).headerAddr =
        some (MachHeader.Header32 memW 0) ∧
    eachFrom memW countContinue 0 [DyldSlot.mk (some 0) 0 (some [47])] = none :=
  ⟨by decide, by decide,
    c7_skip_unrecognized_abort_invalid.2.1 memU 5 (by decide) (by decide), rfl,
    c7_skip_unrecognized_abort_invalid.2.2.2.1 Nat memW countContinue 0
      (DyldSlot.mk (some 0) 0 (some [47])) [] (MachHeader.Header32 memW 0) rfl rfl⟩

/-- C8: stated addresses are returned raw: the section and segment
accessors return exactly the stated `addr` / `vmaddr` field (whenever the
64-bit overflow assertions pass), and `virtual_memory_bias` returns
exactly the slide recorded at construction; no accessor adds the bias to
a stated address. -/
theorem c8_stated_address_no_bias :
    (∀ s : «section»,
      Section.stated_virtual_memory_address (Section.section32 s) = some ⟨s.addr⟩) ∧
    (∀ s : section_64, s.addr < USIZE_MAX →
      Section.stated_virtual_memory_address (Section.section64 s) = some ⟨s.addr⟩) ∧
    (∀ (mem : MachMem) (a : Nat),
      Segment.stated_virtual_memory_address (Segment.segment32 mem a) =
        some ⟨(mem.seg32At a).vmaddr⟩) ∧
    (∀ (mem : MachMem) (a : Nat), (mem.seg64At a).vmaddr ≤ USIZE_MAX →
      Segment.stated_virtual_memory_address (Segment.segment64 mem a) =
        some ⟨(mem.seg64At a).vmaddr⟩) ∧
    (∀ sh : SharedLibrary, sh.virtual_memory_bias = ⟨sh.slide⟩) := by
  refine ⟨fun s => rfl, ?_, fun mem a => rfl, ?_, fun sh => rfl⟩
  · intro s h
    simp only [Section.stated_virtual_memory_address, if_pos h]
    rw [usizeCast_eq (by omega)]
  · intro mem a h
    simp only [Segment.stated_virtual_memory_address, if_pos h]
    rw [usizeCast_eq h]

/-- Witness for C8 at a concrete 64-bit section and segment. -/
theorem c8_stated_address_no_bias_witness :
    ((⟨[], 4096, 64⟩ : section_64).addr < USIZE_MAX) ∧
    Section.stated_virtual_memory_address
      (Section.section64 ⟨[], 4096, 64⟩) = some ⟨4096⟩ ∧
    ((memW.seg64At 0).vmaddr ≤ USIZE_MAX) ∧
    Segment.stated_virtual_memory_address
      (Segment.segment64 memW 0) = some ⟨(memW.seg64At 0).vmaddr⟩ :=
  ⟨by decide, c8_stated_address_no_bias.2.1 ⟨[], 4096, 64⟩ (by decide),
    by decide, c8_stated_address_no_bias.2.2.2.1 memW 0 (by decide)⟩

/-- C9 counterexample: over a loader table whose recognized slot has a
non-null name pointer to an empty C string, `each` invokes the callback
on an image whose `name` is the empty byte string, refuting the claim
that every visited image has a non-empty name. -/
theorem c9_empty_name_counterexample :
    eachRun countContinue 0 stEmptyName = some ([shEmptyName], 1) ∧
    shEmptyName.name = ([] : List Nat) :=
  ⟨rfl, rfl⟩

/-- C9 (amended): every image the callback receives during `each` carries
exactly the name bytes recorded at its (non-null) slot; in particular its
name is non-empty provided the loader table records no empty name
string. -/
theorem c9_name_from_loader_table {σ : Type} (st : DyldState)
    (htable : ∀ slot ∈ st.images, slot.nameAddr ≠ some ([] : List Nat))
    (f : σ → SharedLibrary → σ × IterationControl) (s : σ)
    (l : List SharedLibrary) (sf : σ)
    (h : eachRun f s st = some (l, sf)) :
    ∀ sh ∈ l, sh.name ≠ ([] : List Nat) :=
  eachFrom_names st.mem f st.images htable s l sf h

/-- Witness for the amended C9 at a concrete two-image loader table. -/
theorem c9_name_from_loader_table_witness :
    (∀ slot ∈ stW.images, slot.nameAddr ≠ some ([] : List Nat)) ∧
    (∀ sh ∈ ([shW, shWb] : List SharedLibrary), sh.name ≠ ([] : List Nat)) :=
  ⟨by decide,
    c9_name_from_loader_table stW (by decide) countContinue 0 [shW, shWb] 2 rfl⟩

/-- C10: asymmetric overflow guards on the 64-bit views: the 64-bit
section address accessor succeeds exactly when `addr` is strictly below
`usize::MAX`, the 64-bit segment address accessor permits equality, the
64-bit section `len` performs no check at all (it always returns the
truncating `as usize` cast of `size`), and the 64-bit segment `len`
succeeds exactly when `vmsize <= usize::MAX`. -/
theorem c10_asymmetric_overflow_guards :
    (∀ s : section_64,
      (Section.stated_virtual_memory_address (Section.section64 s)).isSome = true ↔
        s.addr < USIZE_MAX) ∧
    (∀ (mem : MachMem) (a : Nat),
      (Segment.stated_virtual_memory_address (Segment.segment64 mem a)).isSome = true ↔
        (mem.seg64At a).vmaddr ≤ USIZE_MAX) ∧
    (∀ s : section_64, Section.len (Section.section64 s) = usizeCast s.size) ∧
    (∀ (mem : MachMem) (a : Nat),
      (Segment.len (Segment.segment64 mem a)).isSome = true ↔
        (mem.seg64At a).vmsize ≤ USIZE_MAX) := by
  refine ⟨?_, ?_, fun s => rfl, ?_⟩
  · intro s
    simp only [Section.stated_virtual_memory_address]
    by_cases h : s.addr < USIZE_MAX
    · simp [h]
    · simp [h]
  · intro mem a
    simp only [Segment.stated_virtual_memory_address]
    by_cases h : (mem.seg64At a).vmaddr ≤ USIZE_MAX
    · simp [h]
    · simp [h]
  · intro mem a
    simp only [Segment.len]
    by_cases h : (mem.seg64At a).vmsize ≤ USIZE_MAX
    · simp [h]
    · simp [h]

end Findshlibs
